import Mathlib

/-!
Shallow embedding of the Adaptive Mastery & Curriculum Engine of the
CYBER-SENSEI backend (`backend/app/engines/{quiz,progress,curriculum}.py`,
`backend/app/routers/learning.py`, `backend/app/models/{quiz,progress,content}.py`).

Modelling conventions:
* floats become `ℚ` (the engine only adds, multiplies and divides small decimals);
* timestamps become `Int` measured in days (`timedelta(days = n)` is `+ n`);
* SQL rows become Lean structures; nullable columns become `Option`;
* a SQLAlchemy query over a table is a function over the `List` of its rows,
  in insertion order;
* Python's `x or d` default idiom (falsy on `None` and `0`/`0.0`/`""`) is made
  explicit (`orFloat`, `orInt`);
* `raise`/`rollback` become `Except`-valued results paired with the post-state:
  an `.error` result is paired with the unchanged pre-state (the session is
  rolled back), `.ok` with the committed state.  A `commitOk` flag models
  whether the final `db.commit()` itself succeeds.
-/

namespace CyberSensei

/-! ## Data model (`models/quiz.py`, `models/progress.py`, `models/content.py`) -/

/-- A row of `quiz_options`: `option_key`, `label`, `is_correct`.
The `(question_id, option_key)` unique constraint is not baked into the type;
theorems that need it take it as a hypothesis. -/
structure QuizOption where
  option_key : String
  label : String
  is_correct : Bool
deriving DecidableEq

/-- A row of `quiz_questions` together with its child options.  The ORM
relationship delivers `options` ordered by `option_key`; `fetchQuestions`
applies that ordering. -/
structure QuizQuestion where
  id : Int
  topic_id : Int
  prompt : String
  explanation : Option String
  options : List QuizOption
deriving DecidableEq

/-- A row of `projects` (only the field the engine reads). -/
structure Project where
  title : String
deriving DecidableEq

/-- A row of `topics` (the fields the engine reads).  `name`, `difficulty` and
`order` are nullable columns; `projects` is the many-to-many relationship in
association order. -/
structure Topic where
  id : Int
  name : Option String
  difficulty : Option String
  order : Option Int
  projects : List Project
deriving DecidableEq

/-- A row of `users` (only the fields the engine reads). -/
structure UserRec where
  id : Int
  username : String
deriving DecidableEq

/-- A row of `user_progress` (the engine's MasteryRecord).  Timestamps are in
days; `next_review_date` is nullable until first scheduled. -/
structure UserProgressRec where
  user_id : Int
  topic_id : Int
  mastery_probability : Option ℚ
  slip_probability : Option ℚ
  guess_probability : Option ℚ
  learn_probability : Option ℚ
  total_attempts : Option Int
  correct_attempts : Option Int
  status : String
  next_review_date : Option Int
  last_accessed_at : Option Int
  completion_percentage : Option ℚ
deriving DecidableEq

/-- The persistent store visible to the engine. -/
structure DB where
  users : List UserRec
  topics : List Topic
  questions : List QuizQuestion
  progress : List UserProgressRec
deriving DecidableEq

/-! ## Generic list helpers (stable sort, first-minimum, dict operations) -/

/-- Insert `x` into a `le`-sorted list, before the first element it is `le` to.
Together with `insertionSort` this is a stable sort, matching Python's
`list.sort` / SQL `ORDER BY` on the modelled row order. -/
def insertSorted (le : α → α → Bool) (x : α) : List α → List α
  | [] => [x]
  | y :: ys => if le x y then x :: y :: ys else y :: insertSorted le x ys

/-- Stable insertion sort. -/
def insertionSort (le : α → α → Bool) : List α → List α
  | [] => []
  | x :: xs => insertSorted le x (insertionSort le xs)

/-- First element of the list that is minimal for the strict comparison `lt`
(ties keep the earlier element) — the value of `sorted_list[0]` for a stable
sort, and of SQL `ORDER BY k LIMIT 1`. -/
def minFirstBy (lt : α → α → Bool) : List α → Option α
  | [] => none
  | x :: xs => some (xs.foldl (fun acc y => if lt y acc then y else acc) x)

/-- Python-dict insertion into an association list: replace the value of an
existing key in place, otherwise append. -/
def dictInsert (m : List (String × String)) (k v : String) : List (String × String) :=
  if m.any (fun p => p.1 == k) then
    m.map (fun p => if p.1 == k then (k, v) else p)
  else m ++ [(k, v)]

/-- Python's `dict.get`: the value of the first (unique) matching key. -/
def alistGet (m : List (String × String)) (k : String) : Option String :=
  (m.find? (fun p => p.1 == k)).map (fun p => p.2)

/-- Strict lexicographic comparison of character lists by code point — the
ordering Python and the SQL collation use for the short ASCII keys and labels
involved. -/
def charListLt : List Char → List Char → Bool
  | [], [] => false
  | [], _ :: _ => true
  | _ :: _, [] => false
  | c1 :: t1, c2 :: t2 =>
    if c1.toNat < c2.toNat then true
    else if c2.toNat < c1.toNat then false
    else charListLt t1 t2

/-- Strict string comparison by code point. -/
def strLtB (a b : String) : Bool := charListLt a.data b.data

/-! ## Quiz engine (`engines/quiz.py`) -/

/-- `QuizEngine._fetch_questions`: the topic's questions ordered by ascending
id, each with its options ordered by `option_key` (the relationship's
`order_by`). -/
def sortOptions (q : QuizQuestion) : QuizQuestion :=
  { q with options := insertionSort (fun a b => !strLtB b.option_key a.option_key) q.options }

/-- The topic's questions ordered by ascending id, each with its options
ordered by `option_key` (the relationship's `order_by`). -/
def fetchQuestions (qs : List QuizQuestion) (topic_id : Int) : List QuizQuestion :=
  (insertionSort (fun a b => decide (a.id ≤ b.id))
    (qs.filter (fun q => q.topic_id == topic_id))).map sortOptions

/-- `next((o.option_key for o in question.options if o.is_correct), None)`. -/
def firstCorrectKey (opts : List QuizOption) : Option String :=
  (opts.find? (fun o => o.is_correct)).map (fun o => o.option_key)

/-- The loop body of `get_answer_key`: build the id→key dict, raising at the
first question whose `correct_option` is falsy (`None` or the empty string,
since Python's `if not correct_option` treats `""` as missing too). -/
def buildKey : List QuizQuestion → List (String × String) → Except String (List (String × String))
  | [], acc => .ok acc
  | q :: rest, acc =>
    match firstCorrectKey q.options with
    | none =>
      .error ("Question " ++ toString q.id ++ " does not have a correct option configured.")
    | some k =>
      if k = "" then
        .error ("Question " ++ toString q.id ++ " does not have a correct option configured.")
      else buildKey rest (dictInsert acc (toString q.id) k)

/-- `QuizEngine.get_answer_key`. -/
def get_answer_key (qs : List QuizQuestion) (topic_id : Int) : Except String (List (String × String)) :=
  let questions := fetchQuestions qs topic_id
  if questions = [] then .error "No quiz defined for this topic."
  else buildKey questions []

/-- `QuizEngine.grade_submission`.  `answers` is the learner's submission as a
lookup function (Python's `answers.get`); the result is
`(correct_count, total_count)`. -/
def grade_submission (qs : List QuizQuestion) (topic_id : Int)
    (answers : String → Option String) : Except String (Nat × Nat) :=
  match get_answer_key qs topic_id with
  | .error e => .error e
  | .ok key =>
    .ok ((key.filter (fun p => answers p.1 == some p.2)).length, key.length)

/-! ## Mastery estimator (`engines/progress.py`) -/

/-- `BKT_DEFAULTS` from `engines/progress.py`. -/
def BKT_p_init : ℚ := 2/10
/-- Default learn probability. -/
def BKT_p_learn : ℚ := 3/10
/-- Default guess probability. -/
def BKT_p_guess : ℚ := 2/10
/-- Default slip probability. -/
def BKT_p_slip : ℚ := 1/10

/-- Python's `x or d` on a nullable float: `None` and `0.0` both fall back to
the default. -/
def orFloat (x : Option ℚ) (d : ℚ) : ℚ :=
  match x with
  | none => d
  | some v => if v = 0 then d else v

/-- Python's `x or d` on a nullable integer. -/
def orInt (x : Option Int) (d : Int) : Int :=
  match x with
  | none => d
  | some v => if v = 0 then d else v

/-- The effective BKT state `p_known = progress.mastery_probability or p_init`. -/
def effP (r : UserProgressRec) : ℚ := orFloat r.mastery_probability BKT_p_init
/-- `p_slip = progress.slip_probability or p_slip_default`. -/
def effS (r : UserProgressRec) : ℚ := orFloat r.slip_probability BKT_p_slip
/-- `p_guess = progress.guess_probability or p_guess_default`. -/
def effG (r : UserProgressRec) : ℚ := orFloat r.guess_probability BKT_p_guess
/-- `p_learn = progress.learn_probability or p_learn_default`. -/
def effL (r : UserProgressRec) : ℚ := orFloat r.learn_probability BKT_p_learn

/-- The evidence (posterior) step of `update_mastery`: `p_known_new` before the
learning transition.  The code guards the division with `p_observed > 0`. -/
def bktPosterior (p s g : ℚ) (is_correct : Bool) : ℚ :=
  if is_correct then
    let p_observed := p * (1 - s) + (1 - p) * g
    if 0 < p_observed then p * (1 - s) / p_observed else p
  else
    let p_observed := p * s + (1 - p) * (1 - g)
    if 0 < p_observed then p * s / p_observed else p

/-- `min(1.0, max(0.0, x))`. -/
def clamp01 (x : ℚ) : ℚ := min 1 (max 0 x)

/-- The posterior exactly as the specification words it, for comparison with
`bktPosterior`: the guarded case is `p_observed = 0` (the spec's "leaving
p' = p when the denominator is 0") where the code tests `p_observed > 0`. -/
def specPosterior (p s g : ℚ) (is_correct : Bool) : ℚ :=
  if is_correct then
    let d := p * (1 - s) + (1 - p) * g
    if d = 0 then p else p * (1 - s) / d
  else
    let d := p * s + (1 - p) * (1 - g)
    if d = 0 then p else p * s / d

/-- The status band chosen from the new probability. -/
def statusFor (m : ℚ) : String :=
  if 9/10 ≤ m then "mastered" else if 1/2 ≤ m then "in_progress" else "not_started"

/-- The review interval (in days) chosen from the new probability. -/
def reviewDays (m : ℚ) : Int :=
  if 9/10 ≤ m then 7 else if 1/2 ≤ m then 2 else 1

/-- The lazily created record (`UserProgress(...)` constructor call in
`update_mastery`): explicit BKT defaults, status `not_started`; the remaining
columns are unset on the fresh Python object (their SQL defaults apply at
insert, after the in-place update below has already filled them). -/
def freshRecord (user_id topic_id : Int) : UserProgressRec :=
  { user_id := user_id
    topic_id := topic_id
    mastery_probability := some BKT_p_init
    learn_probability := some BKT_p_learn
    guess_probability := some BKT_p_guess
    slip_probability := some BKT_p_slip
    total_attempts := none
    correct_attempts := none
    status := "not_started"
    next_review_date := none
    last_accessed_at := none
    completion_percentage := none }

/-- The in-place mutation of a mastery record performed by `update_mastery`
(attempt counters, BKT update, clamp, status/schedule policy, bookkeeping
timestamp), returning the updated record and the new probability. -/
def applyBkt (r : UserProgressRec) (is_correct : Bool) (now : Int) : UserProgressRec × ℚ :=
  let pPrime := bktPosterior (effP r) (effS r) (effG r) is_correct
  let pNew := clamp01 (pPrime + (1 - pPrime) * effL r)
  ({ r with
      total_attempts := some (orInt r.total_attempts 0 + 1)
      correct_attempts :=
        if is_correct then some (orInt r.correct_attempts 0 + 1) else r.correct_attempts
      mastery_probability := some pNew
      last_accessed_at := some now
      status := statusFor pNew
      next_review_date := some (now + reviewDays pNew) },
    pNew)

/-- Replace the first element satisfying `p` (the single ORM object mutated in
place by the session). -/
def replaceFirst (p : α → Bool) (x : α) : List α → List α
  | [] => []
  | y :: ys => if p y then x :: ys else y :: replaceFirst p x ys

/-- `ProgressTracker.update_mastery`.  Result: the returned probability (or the
raised error) paired with the post-state of the `user_progress` table; every
error path pairs with the unchanged pre-state (`db.rollback()`). -/
def update_mastery (db : List UserProgressRec) (user_id topic_id : Int)
    (is_correct : Bool) (now : Int) (commitOk : Bool) :
    Except String ℚ × List UserProgressRec :=
  if user_id ≤ 0 then (.error "Invalid user_id", db)
  else if topic_id ≤ 0 then (.error "Invalid topic_id", db)
  else
    let idMatch := fun r : UserProgressRec => r.user_id == user_id && r.topic_id == topic_id
    match db.find? idMatch with
    | some r0 =>
      let upd := applyBkt r0 is_correct now
      if commitOk then (.ok upd.2, replaceFirst idMatch upd.1 db)
      else (.error "commit failed", db)
    | none =>
      let upd := applyBkt (freshRecord user_id topic_id) is_correct now
      if commitOk then (.ok upd.2, db ++ [upd.1])
      else (.error "commit failed", db)

/-! ## Curriculum selector (`engines/curriculum.py`) -/

/-- The four tagged outcomes of `get_next_step` (the human-readable `message`
strings are presentation and carry no additional data). -/
inductive Step where
  | error (message : String)
  | review (topic_id : Int) (topic_name : Option String)
  | newTopic (topic_id : Int) (topic_name : Option String) (project_title : Option String)
  | complete
deriving DecidableEq

/-- `db.query(User).filter_by(username=username).first()`. -/
def findUser (db : DB) (username : String) : Option UserRec :=
  db.users.find? (fun u => u.username == username)

/-- The due-review row filter: this user's record, `next_review_date ≤ now`
(SQL: false on NULL), status `in_progress` or `mastered`. -/
def isDue (user_id : Int) (now : Int) (r : UserProgressRec) : Bool :=
  r.user_id == user_id &&
  (match r.next_review_date with
   | some d => decide (d ≤ now)
   | none => false) &&
  (r.status == "in_progress" || r.status == "mastered")

/-- The joined due-review rows
`query(UserProgress, Topic).join(Topic).filter(...)`: each due record paired
with its topic; a record whose `topic_id` has no catalog row is dropped by the
inner join (foreign-key integrity normally rules this out). -/
def duePairs (db : DB) (user_id : Int) (now : Int) : List (UserProgressRec × Topic) :=
  (db.progress.filter (isDue user_id now)).filterMap
    (fun r => (db.topics.find? (fun t => t.id == r.topic_id)).map (fun t => (r, t)))

/-- Strict comparison used by `order_by(UserProgress.next_review_date)` on the
due rows (all of which have a non-null date). -/
def duePairLt (a b : UserProgressRec × Topic) : Bool :=
  decide (a.1.next_review_date.getD 0 < b.1.next_review_date.getD 0)

/-- Membership in the completed-topics subquery:
`UserProgress.completion_percentage >= 95` for this user (SQL: false on NULL).
Note the filter reads the stored completion percentage only — never
`mastery_probability`. -/
def effectivelyComplete (db : DB) (user_id : Int) (t : Topic) : Bool :=
  db.progress.any (fun r =>
    r.user_id == user_id && r.topic_id == t.id &&
    (match r.completion_percentage with
     | some c => decide ((95 : ℚ) ≤ c)
     | none => false))

/-- `query(Topic).filter(~Topic.id.in_(subquery)).all()`. -/
def candidateTopics (db : DB) (user_id : Int) : List Topic :=
  db.topics.filter (fun t => ! effectivelyComplete db user_id t)

/-- `t.order or 999`: `None` and `0` are falsy, so both become 999. -/
def orderKey (t : Topic) : Int :=
  match t.order with
  | none => 999
  | some o => if o = 0 then 999 else o

/-- `t.difficulty or 1`: the difficulty label used as the second sort
component.  When the label is `None` or `""` Python substitutes the integer 1
and the mixed-type tuple comparison raises `TypeError`; the embedding is
therefore only consulted under the hypothesis that every candidate has a
non-null, non-empty difficulty string (witnesses satisfy it). -/
def diffKey (t : Topic) : String := t.difficulty.getD ""

/-- Strict lexicographic comparison on `(t.order or 999, t.difficulty)`, the
key of `candidate_topics.sort`. -/
def topicKeyLt (a b : Topic) : Bool :=
  decide (orderKey a < orderKey b) ||
  (decide (orderKey a = orderKey b) && strLtB (diffKey a) (diffKey b))

/-- `CurriculumEngine.get_next_step`.  `candidate_topics.sort(key=...)` followed
by `candidate_topics[0]` is the first minimum of the stable sort, i.e.
`minFirstBy topicKeyLt`; the `except ImportError` fallback is dead in this
repository (`app/ml_model.py` exists), so the sorted branch is the one
modelled. -/
def get_next_step (db : DB) (username : String) (now : Int) : Step :=
  match findUser db username with
  | none => .error "User not found."
  | some u =>
    match minFirstBy duePairLt (duePairs db u.id now) with
    | some pair => .review pair.2.id pair.2.name
    | none =>
      match minFirstBy topicKeyLt (candidateTopics db u.id) with
      | none => .complete
      | some best =>
        .newTopic best.id best.name ((best.projects.head?).map (fun p => p.title))

/-! ## Quiz-submission boundary (`routers/learning.py`, `submit_quiz`) -/

/-- The `submit_quiz` endpoint: request validation, user and topic lookup,
grading, then a single mastery update with the one binary observation
`is_correct = (correct == total)`.  The HTTP-status details of the raised
`HTTPException`s are collapsed into the error message; the response's
percentage formatting of the final mastery is left as the raw probability. -/
def submit_quiz (db : DB) (username : String) (topic_id : Int)
    (answers : List (String × String)) (now : Int) (commitOk : Bool) :
    Except String (Nat × Nat × ℚ) × List UserProgressRec :=
  if username = "" then (.error "Username is required", db.progress)
  else if topic_id ≤ 0 then (.error "Invalid topic_id", db.progress)
  else if answers = [] then (.error "Answers are required", db.progress)
  else
    match findUser db username with
    | none => (.error "User not found", db.progress)
    | some u =>
      match db.topics.find? (fun t => t.id == topic_id) with
      | none => (.error "Topic not found", db.progress)
      | some _ =>
        match grade_submission db.questions topic_id (alistGet answers) with
        | .error e => (.error e, db.progress)
        | .ok (correct, total) =>
          if total = 0 then (.error "No valid questions found for this topic", db.progress)
          else
            match update_mastery db.progress u.id topic_id (correct == total) now commitOk with
            | (.ok m, progress') => (.ok (correct, total, m), progress')
            | (.error e, progress') => (.error e, progress')

/-! ## Concrete instances (used in witnesses and counterexamples) -/

/-- A learner row. -/
def exAlice : UserRec := { id := 1, username := "alice" }

/-- Catalog topic with ordering hint 0 (which `t.order or 999` coerces to 999). -/
def exTopicA : Topic :=
  { id := 1, name := some "Intro to Security", difficulty := some "beginner",
    order := some 0, projects := [] }

/-- Catalog topic with ordering hint 5. -/
def exTopicB : Topic :=
  { id := 2, name := some "Networking", difficulty := some "beginner",
    order := some 5, projects := [] }

/-- A record with knowledge probability 0.99 (≥ 0.95) but stored completion
percentage 0, and nothing due. -/
def exRecHighMastery : UserProgressRec :=
  { user_id := 1, topic_id := 2, mastery_probability := some (99/100),
    slip_probability := none, guess_probability := none, learn_probability := none,
    total_attempts := some 3, correct_attempts := some 3, status := "not_started",
    next_review_date := none, last_accessed_at := none, completion_percentage := some 0 }

/-- A record with stored completion percentage 100 but low knowledge probability. -/
def exRecComplete : UserProgressRec :=
  { exRecHighMastery with
      mastery_probability := some (1/10)
      completion_percentage := some 100 }

/-- An in-progress record whose review fell due at time −1. -/
def exRecDue : UserProgressRec :=
  { exRecHighMastery with
      mastery_probability := some (6/10)
      status := "in_progress"
      next_review_date := some (-1) }

/-- Catalog with both topics and no progress: exercises the new-topic ranking. -/
def exDBorder : DB :=
  { users := [exAlice], topics := [exTopicA, exTopicB], questions := [], progress := [] }

/-- One topic, one high-mastery/zero-completion record. -/
def exDBmastery : DB :=
  { users := [exAlice], topics := [exTopicB], questions := [], progress := [exRecHighMastery] }

/-- One topic, one completion-100 record. -/
def exDBcomplete : DB :=
  { users := [exAlice], topics := [exTopicB], questions := [], progress := [exRecComplete] }

/-- One topic, one due record. -/
def exDBdue : DB :=
  { users := [exAlice], topics := [exTopicB], questions := [], progress := [exRecDue] }

/-- A question whose only correct option has the empty string as its key
(falsy in Python). -/
def cexQuestion : QuizQuestion :=
  { id := 1, topic_id := 1, prompt := "Pick one", explanation := none,
    options := [{ option_key := "", label := "the answer", is_correct := true }] }

/-- A two-option question with correct key `b`. -/
def exQ1 : QuizQuestion :=
  { id := 1, topic_id := 1, prompt := "q1", explanation := none,
    options := [{ option_key := "a", label := "no", is_correct := false },
                { option_key := "b", label := "yes", is_correct := true }] }

/-- A two-option question with correct key `a`. -/
def exQ2 : QuizQuestion :=
  { id := 2, topic_id := 1, prompt := "q2", explanation := none,
    options := [{ option_key := "a", label := "yes", is_correct := true },
                { option_key := "b", label := "no", is_correct := false }] }

/-- A full store with one learner, one topic and its two-question quiz. -/
def exDBquiz : DB :=
  { users := [exAlice], topics := [exTopicA], questions := [exQ1, exQ2], progress := [] }

/-! ## Helper lemmas: first-minimum of a list under a boolean strict order -/

theorem ltIrrefl {lt : α → α → Bool}
    (hasymm : ∀ a b, lt a b = true → lt b a = false) (a : α) : lt a a = false := by
  cases h : lt a a
  · rfl
  · have hf := hasymm a a h
    rw [h] at hf
    exact Bool.noConfusion hf

theorem foldlMin_mem (lt : α → α → Bool) :
    ∀ (xs : List α) (acc : α),
      xs.foldl (fun a y => if lt y a then y else a) acc = acc ∨
        xs.foldl (fun a y => if lt y a then y else a) acc ∈ xs
  | [], _ => Or.inl rfl
  | x :: xs, acc => by
    simp only [List.foldl_cons]
    cases h : lt x acc
    · simp only [h, Bool.false_eq_true, if_false]
      rcases foldlMin_mem lt xs acc with h1 | h1
      · exact Or.inl h1
      · exact Or.inr (List.mem_cons_of_mem x h1)
    · simp only [h, if_true]
      rcases foldlMin_mem lt xs x with h1 | h1
      · exact Or.inr (by rw [h1]; exact List.mem_cons_self x xs)
      · exact Or.inr (List.mem_cons_of_mem x h1)

theorem foldlMin_not_lt (lt : α → α → Bool)
    (hasymm : ∀ a b, lt a b = true → lt b a = false)
    (hcompat : ∀ a b c, lt a b = true → lt c b = false → lt a c = true) :
    ∀ (xs : List α) (acc : α),
      lt acc (xs.foldl (fun a y => if lt y a then y else a) acc) = false ∧
        ∀ y ∈ xs, lt y (xs.foldl (fun a y => if lt y a then y else a) acc) = false
  | [], acc => ⟨ltIrrefl hasymm acc, by simp⟩
  | x :: xs, acc => by
    simp only [List.foldl_cons]
    cases h : lt x acc
    · -- the accumulator survives
      simp only [h, Bool.false_eq_true, if_false]
      obtain ⟨ih1, ih2⟩ := foldlMin_not_lt lt hasymm hcompat xs acc
      refine ⟨ih1, ?_⟩
      intro y hy
      rcases List.mem_cons.mp hy with rfl | hy
      · -- y = x: if lt x m were true then, as lt acc m = false, lt x acc would hold
        cases hc : lt y (xs.foldl (fun a z => if lt z a then z else a) acc)
        · rfl
        · have hxacc := hcompat y _ acc hc ih1
          rw [h] at hxacc
          exact Bool.noConfusion hxacc
      · exact ih2 y hy
    · -- x replaces the accumulator
      simp only [h, if_true]
      obtain ⟨ih1, ih2⟩ := foldlMin_not_lt lt hasymm hcompat xs x
      constructor
      · cases hc : lt acc (xs.foldl (fun a z => if lt z a then z else a) x)
        · rfl
        · have haccx := hcompat acc _ x hc ih1
          have := hasymm x acc h
          rw [haccx] at this
          exact Bool.noConfusion this
      · intro y hy
        rcases List.mem_cons.mp hy with rfl | hy
        · exact ih1
        · exact ih2 y hy

theorem minFirstBy_spec {lt : α → α → Bool}
    (hasymm : ∀ a b, lt a b = true → lt b a = false)
    (hcompat : ∀ a b c, lt a b = true → lt c b = false → lt a c = true)
    {l : List α} {m : α} (h : minFirstBy lt l = some m) :
    m ∈ l ∧ ∀ y ∈ l, lt y m = false := by
  cases l with
  | nil => exact Option.noConfusion h
  | cons x xs =>
    simp only [minFirstBy, Option.some.injEq] at h
    subst h
    constructor
    · rcases foldlMin_mem lt xs x with h1 | h1
      · rw [h1]; exact List.mem_cons_self x xs
      · exact List.mem_cons_of_mem x h1
    · intro y hy
      rcases List.mem_cons.mp hy with rfl | hy
      · exact (foldlMin_not_lt lt hasymm hcompat xs y).1
      · exact (foldlMin_not_lt lt hasymm hcompat xs x).2 y hy

theorem minFirstBy_nil {lt : α → α → Bool} : minFirstBy lt ([] : List α) = none := rfl

theorem minFirstBy_eq_none {lt : α → α → Bool} {l : List α} :
    minFirstBy lt l = none ↔ l = [] := by
  cases l <;> simp [minFirstBy]

theorem minFirstBy_of_ne_nil (lt : α → α → Bool) {l : List α} (h : l ≠ []) :
    ∃ m, minFirstBy lt l = some m := by
  cases l with
  | nil => exact absurd rfl h
  | cons x xs => exact ⟨_, rfl⟩

/-! ## Helper lemmas: the two concrete comparisons are strict orders -/

theorem duePairLt_asymm : ∀ a b, duePairLt a b = true → duePairLt b a = false := by
  intro a b h
  simp only [duePairLt, decide_eq_true_eq] at h
  simp only [duePairLt, decide_eq_false_iff_not]
  omega

theorem duePairLt_compat :
    ∀ a b c, duePairLt a b = true → duePairLt c b = false → duePairLt a c = true := by
  intro a b c h1 h2
  simp only [duePairLt, decide_eq_true_eq] at h1
  simp only [duePairLt, decide_eq_false_iff_not] at h2
  simp only [duePairLt, decide_eq_true_eq]
  omega

theorem charListLt_asymm : ∀ a b, charListLt a b = true → charListLt b a = false
  | [], [], h => by simp [charListLt] at h
  | [], _ :: _, _ => rfl
  | _ :: _, [], h => by simp [charListLt] at h
  | c1 :: t1, c2 :: t2, h => by
    simp only [charListLt] at h ⊢
    by_cases h12 : c1.toNat < c2.toNat
    · rw [if_neg (by omega), if_pos h12]
    · by_cases h21 : c2.toNat < c1.toNat
      · rw [if_neg h12, if_pos h21] at h
        exact absurd h (by simp)
      · rw [if_neg h12, if_neg h21] at h
        rw [if_neg h21, if_neg h12]
        exact charListLt_asymm t1 t2 h

theorem charListLt_trans :
    ∀ a b c, charListLt a b = true → charListLt b c = true → charListLt a c = true
  | [], [], _, h1, _ => by simp [charListLt] at h1
  | [], _ :: _, [], _, h2 => by simp [charListLt] at h2
  | [], _ :: _, _ :: _, _, _ => rfl
  | _ :: _, [], _, h1, _ => by simp [charListLt] at h1
  | _ :: _, _ :: _, [], _, h2 => by simp [charListLt] at h2
  | a1 :: t1, b1 :: t2, c1 :: t3, h1, h2 => by
    simp only [charListLt] at h1 h2 ⊢
    by_cases hab : a1.toNat < b1.toNat
    · by_cases hbc : b1.toNat < c1.toNat
      · rw [if_pos (by omega)]
      · by_cases hcb : c1.toNat < b1.toNat
        · rw [if_neg hbc, if_pos hcb] at h2
          exact absurd h2 (by simp)
        · rw [if_pos (by omega)]
    · by_cases hba : b1.toNat < a1.toNat
      · rw [if_neg hab, if_pos hba] at h1
        exact absurd h1 (by simp)
      · rw [if_neg hab, if_neg hba] at h1
        by_cases hbc : b1.toNat < c1.toNat
        · rw [if_pos (by omega)]
        · by_cases hcb : c1.toNat < b1.toNat
          · rw [if_neg hbc, if_pos hcb] at h2
            exact absurd h2 (by simp)
          · rw [if_neg hbc, if_neg hcb] at h2
            rw [if_neg (by omega), if_neg (by omega)]
            exact charListLt_trans t1 t2 t3 h1 h2

theorem charListLt_trichotomy :
    ∀ a b, charListLt a b = true ∨ a = b ∨ charListLt b a = true
  | [], [] => Or.inr (Or.inl rfl)
  | [], _ :: _ => Or.inl rfl
  | _ :: _, [] => Or.inr (Or.inr rfl)
  | c1 :: t1, c2 :: t2 => by
    by_cases h12 : c1.toNat < c2.toNat
    · exact Or.inl (by simp only [charListLt]; rw [if_pos h12])
    · by_cases h21 : c2.toNat < c1.toNat
      · exact Or.inr (Or.inr (by simp only [charListLt]; rw [if_pos h21]))
      · have hc : c1 = c2 := by
          apply Char.ext
          apply UInt32.ext
          have h12' : ¬c1.val.toNat < c2.val.toNat := h12
          have h21' : ¬c2.val.toNat < c1.val.toNat := h21
          omega
        rcases charListLt_trichotomy t1 t2 with h | h | h
        · exact Or.inl (by simp only [charListLt]; rw [if_neg h12, if_neg h21]; exact h)
        · exact Or.inr (Or.inl (by rw [hc, h]))
        · exact Or.inr (Or.inr (by simp only [charListLt]; rw [if_neg h21, if_neg h12]; exact h))

theorem strLtB_asymm (a b : String) (h : strLtB a b = true) : strLtB b a = false :=
  charListLt_asymm a.data b.data h

theorem strLtB_trans (a b c : String) (h1 : strLtB a b = true) (h2 : strLtB b c = true) :
    strLtB a c = true :=
  charListLt_trans a.data b.data c.data h1 h2

theorem strLtB_trichotomy (a b : String) :
    strLtB a b = true ∨ a = b ∨ strLtB b a = true := by
  rcases charListLt_trichotomy a.data b.data with h | h | h
  · exact Or.inl h
  · refine Or.inr (Or.inl ?_)
    cases a with
    | mk da =>
      cases b with
      | mk db =>
        have hd : da = db := h
        rw [hd]
  · exact Or.inr (Or.inr h)

theorem topicKeyLt_iff (a b : Topic) :
    topicKeyLt a b = true ↔
      orderKey a < orderKey b ∨
        (orderKey a = orderKey b ∧ strLtB (diffKey a) (diffKey b) = true) := by
  simp [topicKeyLt]

theorem topicKeyLt_asymm : ∀ a b, topicKeyLt a b = true → topicKeyLt b a = false := by
  intro a b h
  rw [topicKeyLt_iff] at h
  rw [Bool.eq_false_iff]
  intro hba
  rw [topicKeyLt_iff] at hba
  rcases h with h | ⟨he, hd⟩
  · rcases hba with hba | ⟨hbe, -⟩
    · exact absurd hba (lt_asymm h)
    · exact absurd hbe (ne_of_gt h)
  · rcases hba with hba | ⟨-, hbd⟩
    · exact absurd hba (he ▸ lt_irrefl _)
    · rw [strLtB_asymm _ _ hd] at hbd
      exact Bool.noConfusion hbd

theorem topicKeyLt_compat :
    ∀ a b c, topicKeyLt a b = true → topicKeyLt c b = false → topicKeyLt a c = true := by
  intro a b c h1 h2
  rw [topicKeyLt_iff] at h1 ⊢
  rw [Bool.eq_false_iff] at h2
  have h2' : ¬(orderKey c < orderKey b ∨
      (orderKey c = orderKey b ∧ strLtB (diffKey c) (diffKey b) = true)) :=
    fun hc => h2 ((topicKeyLt_iff c b).mpr hc)
  push_neg at h2'
  obtain ⟨hco, hcd⟩ := h2'
  rcases h1 with h1 | ⟨he, hd⟩
  · exact Or.inl (lt_of_lt_of_le h1 hco)
  · rcases lt_or_eq_of_le hco with hlt | heq
    · exact Or.inl (he ▸ hlt)
    · refine Or.inr ⟨he.trans heq, ?_⟩
      have hcb : strLtB (diffKey c) (diffKey b) = false :=
        Bool.eq_false_iff.mpr (hcd heq.symm)
      rcases strLtB_trichotomy (diffKey b) (diffKey c) with hbc | hbc | hbc
      · exact strLtB_trans _ _ _ hd hbc
      · rw [← hbc]; exact hd
      · rw [hbc] at hcb; exact Bool.noConfusion hcb

/-! ## Helper lemmas: due-review rows and candidate topics -/

theorem isDue_iff (uid now : Int) (r : UserProgressRec) :
    isDue uid now r = true ↔
      r.user_id = uid ∧ (∃ d, r.next_review_date = some d ∧ d ≤ now) ∧
        (r.status = "in_progress" ∨ r.status = "mastered") := by
  cases h : r.next_review_date <;>
    simp [isDue, h, Bool.and_eq_true, Bool.or_eq_true, and_assoc]

theorem mem_duePairs {db : DB} {uid now : Int} {r : UserProgressRec} {t : Topic} :
    (r, t) ∈ duePairs db uid now ↔
      r ∈ db.progress ∧ isDue uid now r = true ∧
        db.topics.find? (fun tt => tt.id == r.topic_id) = some t := by
  simp only [duePairs, List.mem_filterMap, List.mem_filter, Option.map_eq_some']
  constructor
  · rintro ⟨a, ⟨ha, hdue⟩, t0, hfind, heq⟩
    injection heq with h1 h2
    subst h1; subst h2
    exact ⟨ha, hdue, hfind⟩
  · rintro ⟨hr, hdue, hfind⟩
    exact ⟨r, ⟨hr, hdue⟩, t, hfind, rfl⟩

theorem duePairs_eq_nil_iff {db : DB} {uid now : Int}
    (hfk : ∀ r ∈ db.progress, isDue uid now r = true → ∃ t ∈ db.topics, t.id = r.topic_id) :
    duePairs db uid now = [] ↔ ∀ r ∈ db.progress, isDue uid now r = false := by
  constructor
  · intro hnil r hr
    cases hdue : isDue uid now r
    · rfl
    · obtain ⟨t, ht, htid⟩ := hfk r hr hdue
      have hsome : (db.topics.find? (fun tt => tt.id == r.topic_id)).isSome :=
        List.find?_isSome.mpr ⟨t, ht, by simp [htid]⟩
      obtain ⟨t', ht'⟩ := Option.isSome_iff_exists.mp hsome
      have : (r, t') ∈ duePairs db uid now := mem_duePairs.mpr ⟨hr, hdue, ht'⟩
      rw [hnil] at this
      exact absurd this (List.not_mem_nil _)
  · intro hall
    rw [duePairs]
    have : db.progress.filter (isDue uid now) = [] :=
      List.filter_eq_nil_iff.mpr (fun r hr => by simp [hall r hr])
    rw [this, List.filterMap_nil]

theorem mem_candidateTopics {db : DB} {uid : Int} {t : Topic} :
    t ∈ candidateTopics db uid ↔ t ∈ db.topics ∧ effectivelyComplete db uid t = false := by
  simp [candidateTopics, List.mem_filter]

/-! ## Helper lemmas: mastery estimator -/

theorem statusFor_mastered (m : ℚ) : statusFor m = "mastered" ↔ 9/10 ≤ m := by
  unfold statusFor
  split_ifs with h1 h2
  · exact iff_of_true rfl h1
  · exact iff_of_false (by decide) h1
  · exact iff_of_false (by decide) h1

theorem statusFor_in_progress (m : ℚ) :
    statusFor m = "in_progress" ↔ 1/2 ≤ m ∧ m < 9/10 := by
  unfold statusFor
  split_ifs with h1 h2
  · exact iff_of_false (by decide) (fun hc => absurd h1 (not_le.mpr hc.2))
  · exact iff_of_true rfl ⟨h2, lt_of_not_le h1⟩
  · exact iff_of_false (by decide) (fun hc => h2 hc.1)

theorem statusFor_not_started (m : ℚ) : statusFor m = "not_started" ↔ m < 1/2 := by
  unfold statusFor
  split_ifs with h1 h2
  · exact iff_of_false (by decide)
      (not_lt.mpr (le_trans (show (1:ℚ)/2 ≤ 9/10 by norm_num) h1))
  · exact iff_of_false (by decide) (not_lt.mpr h2)
  · exact iff_of_true rfl (lt_of_not_le h2)

theorem reviewDays_eq (m : ℚ) :
    (reviewDays m = 7 ↔ 9/10 ≤ m) ∧
      (reviewDays m = 2 ↔ 1/2 ≤ m ∧ m < 9/10) ∧ (reviewDays m = 1 ↔ m < 1/2) := by
  unfold reviewDays
  split_ifs with h1 h2
  · exact ⟨iff_of_true rfl h1,
      iff_of_false (by decide) (fun hc => absurd h1 (not_le.mpr hc.2)),
      iff_of_false (by decide)
        (not_lt.mpr (le_trans (show (1:ℚ)/2 ≤ 9/10 by norm_num) h1))⟩
  · exact ⟨iff_of_false (by decide) h1,
      iff_of_true rfl ⟨h2, lt_of_not_le h1⟩,
      iff_of_false (by decide) (not_lt.mpr h2)⟩
  · exact ⟨iff_of_false (by decide) h1,
      iff_of_false (by decide) (fun hc => h2 hc.1),
      iff_of_true rfl (lt_of_not_le h2)⟩

theorem replaceFirst_mem {p : α → Bool} {x : α} :
    ∀ {l : List α}, (∃ y ∈ l, p y = true) → x ∈ replaceFirst p x l
  | [], h => absurd h (by simp)
  | y :: ys, h => by
    unfold replaceFirst
    cases hy : p y
    · simp only [Bool.false_eq_true, if_false]
      obtain ⟨z, hz, hpz⟩ := h
      rcases List.mem_cons.mp hz with rfl | hz
    -- z = y contradicts p y = false
      · rw [hy] at hpz; exact Bool.noConfusion hpz
      · exact List.mem_cons_of_mem y (replaceFirst_mem ⟨z, hz, hpz⟩)
    · simp only [if_true]
      exact List.mem_cons_self x ys

/-- The committed branch of `update_mastery` on valid identifiers, as one
equation: the result is the BKT update of the found record (or of the lazily
created one), and the post-state stores that updated record. -/
theorem update_mastery_commit (db : List UserProgressRec) (uid tid : Int)
    (c : Bool) (now : Int) (hu : 0 < uid) (ht : 0 < tid) :
    update_mastery db uid tid c now true =
      (.ok (applyBkt ((db.find? (fun r => r.user_id == uid && r.topic_id == tid)).getD
          (freshRecord uid tid)) c now).2,
        match db.find? (fun r => r.user_id == uid && r.topic_id == tid) with
        | some _ =>
          replaceFirst (fun r => r.user_id == uid && r.topic_id == tid)
            (applyBkt ((db.find? (fun r => r.user_id == uid && r.topic_id == tid)).getD
              (freshRecord uid tid)) c now).1 db
        | none =>
          db ++ [(applyBkt (freshRecord uid tid) c now).1]) := by
  unfold update_mastery
  rw [if_neg (not_le.mpr hu), if_neg (not_le.mpr ht)]
  cases h : db.find? (fun r => r.user_id == uid && r.topic_id == tid) <;> simp [h]

/-- On valid identifiers and a successful commit, the post-state contains the
consistently updated record for exactly the requested (user, topic) pair. -/
theorem update_mastery_record (db : List UserProgressRec) (uid tid : Int)
    (c : Bool) (now : Int) (hu : 0 < uid) (ht : 0 < tid) :
    ∃ r' m,
      (update_mastery db uid tid c now true).1 = .ok m ∧
        r' ∈ (update_mastery db uid tid c now true).2 ∧
        r'.user_id = uid ∧ r'.topic_id = tid ∧
        r'.mastery_probability = some m ∧
        r'.status = statusFor m ∧
        r'.next_review_date = some (now + reviewDays m) ∧
        r'.last_accessed_at = some now := by
  rw [update_mastery_commit db uid tid c now hu ht]
  cases h : db.find? (fun r => r.user_id == uid && r.topic_id == tid) with
  | none =>
    refine ⟨(applyBkt (freshRecord uid tid) c now).1, _, rfl, ?_, rfl, rfl, rfl, rfl, rfl, rfl⟩
    simp [h]
  | some r0 =>
    have hp := List.find?_some h
    simp only [Bool.and_eq_true, beq_iff_eq] at hp
    simp only [h, Option.getD_some]
    refine ⟨(applyBkt r0 c now).1, (applyBkt r0 c now).2, rfl, ?_, hp.1, hp.2, rfl, rfl, rfl, rfl⟩
    exact replaceFirst_mem ⟨r0, List.mem_of_find?_eq_some h, by simp [hp.1, hp.2]⟩

/-! ## Claim theorems -/

theorem bktPosterior_eq_spec (p s g : ℚ) (c : Bool)
    (hp0 : 0 ≤ p) (hp1 : p ≤ 1) (hs0 : 0 ≤ s) (hs1 : s ≤ 1) (hg0 : 0 ≤ g) (hg1 : g ≤ 1) :
    bktPosterior p s g c = specPosterior p s g c := by
  cases c
  · have hnn : 0 ≤ p * s + (1 - p) * (1 - g) :=
      add_nonneg (mul_nonneg hp0 hs0) (mul_nonneg (by linarith) (by linarith))
    simp only [bktPosterior, specPosterior, Bool.false_eq_true, if_false]
    rcases lt_or_eq_of_le hnn with hlt | heq
    · rw [if_pos hlt, if_neg (ne_of_gt hlt)]
    · rw [if_neg (show ¬0 < p * s + (1 - p) * (1 - g) by rw [← heq]; exact lt_irrefl 0),
        if_pos heq.symm]
  · have hnn : 0 ≤ p * (1 - s) + (1 - p) * g :=
      add_nonneg (mul_nonneg hp0 (by linarith)) (mul_nonneg (by linarith) hg0)
    simp only [bktPosterior, specPosterior, if_true]
    rcases lt_or_eq_of_le hnn with hlt | heq
    · rw [if_pos hlt, if_neg (ne_of_gt hlt)]
    · rw [if_neg (show ¬0 < p * (1 - s) + (1 - p) * g by rw [← heq]; exact lt_irrefl 0),
        if_pos heq.symm]

/-- Claim C1: for every mastery record with effective parameters s, g, l and
current probability p (all probabilities in [0,1]), the update computes the
posterior p' = p·(1−s)/(p·(1−s)+(1−p)·g) on a correct observation and
p' = p·s/(p·s+(1−p)·(1−g)) on an incorrect one (p' = p when the denominator is
0) and returns clamp(p' + (1−p')·l, 0, 1); from the defaults p=0.2, s=0.1,
g=0.2, l=0.3, one correct observation yields 57/85 ≈ 0.671 with status
in_progress and next review in 2 days. -/
theorem C1_bkt_update_formula_and_scenario :
    (∀ (r : UserProgressRec) (c : Bool) (now : Int),
        0 ≤ effP r → effP r ≤ 1 → 0 ≤ effS r → effS r ≤ 1 → 0 ≤ effG r → effG r ≤ 1 →
        (applyBkt r c now).2 =
          clamp01 (specPosterior (effP r) (effS r) (effG r) c +
            (1 - specPosterior (effP r) (effS r) (effG r) c) * effL r)) ∧
      (update_mastery [] 1 1 true 0 true).1 = .ok (57/85) ∧
      |(57:ℚ)/85 - 671/1000| < 1/1000 ∧
      (update_mastery [] 1 1 true 0 true).2.map
        (fun r => (r.status, r.next_review_date)) = [("in_progress", some 2)] := by
  refine ⟨?_, ?_, by norm_num [abs], ?_⟩
  · intro r c now hp0 hp1 hs0 hs1 hg0 hg1
    have happ : (applyBkt r c now).2 =
        clamp01 (bktPosterior (effP r) (effS r) (effG r) c +
          (1 - bktPosterior (effP r) (effS r) (effG r) c) * effL r) := rfl
    rw [happ, bktPosterior_eq_spec (effP r) (effS r) (effG r) c hp0 hp1 hs0 hs1 hg0 hg1]
  · simp [update_mastery, applyBkt, bktPosterior, clamp01, effP, effS, effG, effL, orFloat,
      freshRecord, BKT_p_init, BKT_p_slip, BKT_p_guess, BKT_p_learn]
    norm_num [min_def, max_def]
  · simp [update_mastery, applyBkt, bktPosterior, clamp01, effP, effS, effG, effL, orFloat,
      freshRecord, BKT_p_init, BKT_p_slip, BKT_p_guess, BKT_p_learn, statusFor, reviewDays]
    norm_num [min_def, max_def]

/-- Witness for C1: the formula part applied to the lazily created record with
its default parameters. -/
theorem C1_witness :
    (applyBkt (freshRecord 1 1) true 0).2 =
      clamp01 (specPosterior (effP (freshRecord 1 1)) (effS (freshRecord 1 1))
          (effG (freshRecord 1 1)) true +
        (1 - specPosterior (effP (freshRecord 1 1)) (effS (freshRecord 1 1))
            (effG (freshRecord 1 1)) true) * effL (freshRecord 1 1)) :=
  C1_bkt_update_formula_and_scenario.1 (freshRecord 1 1) true 0
    (by norm_num [effP, orFloat, freshRecord, BKT_p_init])
    (by norm_num [effP, orFloat, freshRecord, BKT_p_init])
    (by norm_num [effS, orFloat, freshRecord, BKT_p_slip])
    (by norm_num [effS, orFloat, freshRecord, BKT_p_slip])
    (by norm_num [effG, orFloat, freshRecord, BKT_p_guess])
    (by norm_num [effG, orFloat, freshRecord, BKT_p_guess])

/-- Claim C6: immediately after every committed `update_mastery` call on valid
identifiers, the stored record's status and review interval are determined by
the new knowledge probability m: status mastered with review in 7 days iff
m ≥ 0.9, in_progress with review in 2 days iff m ∈ [0.5, 0.9), and not_started
with review in 1 day iff m < 0.5. -/
theorem C6_status_bands (db : List UserProgressRec) (uid tid : Int) (c : Bool) (now : Int)
    (hu : 0 < uid) (ht : 0 < tid) :
    ∃ r' m,
      (update_mastery db uid tid c now true).1 = .ok m ∧
        r' ∈ (update_mastery db uid tid c now true).2 ∧
        r'.user_id = uid ∧ r'.topic_id = tid ∧ r'.mastery_probability = some m ∧
        ((r'.status = "mastered" ∧ r'.next_review_date = some (now + 7)) ↔ 9/10 ≤ m) ∧
        ((r'.status = "in_progress" ∧ r'.next_review_date = some (now + 2)) ↔
          1/2 ≤ m ∧ m < 9/10) ∧
        ((r'.status = "not_started" ∧ r'.next_review_date = some (now + 1)) ↔ m < 1/2) := by
  obtain ⟨r', m, h1, h2, h3, h4, h5, h6, h7, -⟩ := update_mastery_record db uid tid c now hu ht
  refine ⟨r', m, h1, h2, h3, h4, h5, ?_, ?_, ?_⟩
  · constructor
    · rintro ⟨hs, -⟩
      rw [h6] at hs
      exact (statusFor_mastered m).mp hs
    · intro hm
      refine ⟨by rw [h6]; exact (statusFor_mastered m).mpr hm, ?_⟩
      rw [h7, (reviewDays_eq m).1.mpr hm]
  · constructor
    · rintro ⟨hs, -⟩
      rw [h6] at hs
      exact (statusFor_in_progress m).mp hs
    · intro hm
      refine ⟨by rw [h6]; exact (statusFor_in_progress m).mpr hm, ?_⟩
      rw [h7, (reviewDays_eq m).2.1.mpr hm]
  · constructor
    · rintro ⟨hs, -⟩
      rw [h6] at hs
      exact (statusFor_not_started m).mp hs
    · intro hm
      refine ⟨by rw [h6]; exact (statusFor_not_started m).mpr hm, ?_⟩
      rw [h7, (reviewDays_eq m).2.2.mpr hm]

/-- Witness for C6: one committed update on an empty store. -/
theorem C6_witness :
    ∃ r' m,
      (update_mastery [] 1 1 true 0 true).1 = .ok m ∧
        r' ∈ (update_mastery [] 1 1 true 0 true).2 ∧
        r'.user_id = 1 ∧ r'.topic_id = 1 ∧ r'.mastery_probability = some m ∧
        ((r'.status = "mastered" ∧ r'.next_review_date = some (0 + 7)) ↔ 9/10 ≤ m) ∧
        ((r'.status = "in_progress" ∧ r'.next_review_date = some (0 + 2)) ↔
          1/2 ≤ m ∧ m < 9/10) ∧
        ((r'.status = "not_started" ∧ r'.next_review_date = some (0 + 1)) ↔ m < 1/2) :=
  C6_status_bands [] 1 1 true 0 (by norm_num) (by norm_num)

/-- Claim C7: `update_mastery` rejects non-positive identifiers with an error
and no state change; every error outcome leaves the store exactly as before
(full rollback), and every success stores a record whose probability, status,
review date and access timestamp were all updated together. -/
theorem C7_validation_and_rollback (db : List UserProgressRec) (uid tid : Int)
    (c : Bool) (now : Int) (commitOk : Bool) :
    ((uid ≤ 0 ∨ tid ≤ 0) →
        (∃ e, (update_mastery db uid tid c now commitOk).1 = .error e) ∧
          (update_mastery db uid tid c now commitOk).2 = db) ∧
      (∀ e, (update_mastery db uid tid c now commitOk).1 = .error e →
        (update_mastery db uid tid c now commitOk).2 = db) ∧
      (∀ m, (update_mastery db uid tid c now commitOk).1 = .ok m →
        ∃ r', r' ∈ (update_mastery db uid tid c now commitOk).2 ∧
          r'.user_id = uid ∧ r'.topic_id = tid ∧
          r'.mastery_probability = some m ∧ r'.status = statusFor m ∧
          r'.next_review_date = some (now + reviewDays m) ∧
          r'.last_accessed_at = some now) := by
  by_cases hu : uid ≤ 0
  · have h : update_mastery db uid tid c now commitOk = (.error "Invalid user_id", db) := by
      unfold update_mastery
      rw [if_pos hu]
    rw [h]
    exact ⟨fun _ => ⟨⟨_, rfl⟩, rfl⟩, fun _ _ => rfl, fun m hm => by simp at hm⟩
  · by_cases ht : tid ≤ 0
    · have h : update_mastery db uid tid c now commitOk = (.error "Invalid topic_id", db) := by
        unfold update_mastery
        rw [if_neg hu, if_pos ht]
      rw [h]
      exact ⟨fun _ => ⟨⟨_, rfl⟩, rfl⟩, fun _ _ => rfl, fun m hm => by simp at hm⟩
    · have hu' : 0 < uid := not_le.mp hu
      have ht' : 0 < tid := not_le.mp ht
      cases commitOk
      · have h : update_mastery db uid tid c now false =
            (.error "commit failed", db) := by
          unfold update_mastery
          rw [if_neg hu, if_neg ht]
          cases hf : db.find? (fun r => r.user_id == uid && r.topic_id == tid) <;> simp [hf]
        rw [h]
        refine ⟨fun h0 => ?_, fun _ _ => rfl, fun m hm => by simp at hm⟩
        rcases h0 with h0 | h0
        · exact absurd h0 hu
        · exact absurd h0 ht
      · obtain ⟨r', m0, h1, h2, h3, h4, h5, h6, h7, h8⟩ :=
          update_mastery_record db uid tid c now hu' ht'
        refine ⟨fun h0 => ?_, fun e he => ?_, fun m hm => ?_⟩
        · rcases h0 with h0 | h0
          · exact absurd h0 hu
          · exact absurd h0 ht
        · rw [h1] at he
          exact Except.noConfusion he
        · rw [h1] at hm
          injection hm with hm
          exact ⟨r', h2, h3, h4, hm ▸ h5, hm ▸ h6, hm ▸ h7, h8⟩

/-- Witness for C7: a non-positive learner id is rejected without touching the
store. -/
theorem C7_witness :
    (∃ e, (update_mastery [] 0 1 true 0 true).1 = .error e) ∧
      (update_mastery [] 0 1 true 0 true).2 = [] :=
  (C7_validation_and_rollback [] 0 1 true 0 true).1 (Or.inl le_rfl)

theorem update_mastery_single (r : UserProgressRec) (uid tid : Int) (c : Bool) (now : Int)
    (hu : 0 < uid) (ht : 0 < tid) (hru : r.user_id = uid) (hrt : r.topic_id = tid) :
    update_mastery [r] uid tid c now true =
      (.ok (applyBkt r c now).2, [(applyBkt r c now).1]) := by
  unfold update_mastery
  rw [if_neg (not_le.mpr hu), if_neg (not_le.mpr ht)]
  simp [List.find?, hru, hrt, replaceFirst]

/-- Claim C9: a stored knowledge probability of exactly 0 (or null) is replaced
by the default 0.2 before computing the posterior, and a stored zero-valued
slip/guess/learn override is likewise replaced by its default (0.1, 0.2, 0.3),
so the update from a stored probability 0 is identical to the update from 0.2
and a zero parameter override is never used. -/
theorem C9_zero_defaults :
    (∀ d : ℚ, orFloat (some 0) d = d ∧ orFloat none d = d) ∧
      ∀ (r : UserProgressRec) (c : Bool) (now : Int),
        0 < r.user_id → 0 < r.topic_id →
        (update_mastery [{ r with mastery_probability := some 0 }]
            r.user_id r.topic_id c now true =
          update_mastery [{ r with mastery_probability := some BKT_p_init }]
            r.user_id r.topic_id c now true) ∧
        (update_mastery [{ r with mastery_probability := none }]
            r.user_id r.topic_id c now true =
          update_mastery [{ r with mastery_probability := some BKT_p_init }]
            r.user_id r.topic_id c now true) ∧
        ((update_mastery [{ r with slip_probability := some 0 }]
            r.user_id r.topic_id c now true).1 =
          (update_mastery [{ r with slip_probability := some BKT_p_slip }]
            r.user_id r.topic_id c now true).1) ∧
        ((update_mastery [{ r with guess_probability := some 0 }]
            r.user_id r.topic_id c now true).1 =
          (update_mastery [{ r with guess_probability := some BKT_p_guess }]
            r.user_id r.topic_id c now true).1) ∧
        ((update_mastery [{ r with learn_probability := some 0 }]
            r.user_id r.topic_id c now true).1 =
          (update_mastery [{ r with learn_probability := some BKT_p_learn }]
            r.user_id r.topic_id c now true).1) := by
  refine ⟨fun d => ⟨by simp [orFloat], by simp [orFloat]⟩, ?_⟩
  intro r c now hu ht
  refine ⟨?_, ?_, ?_, ?_, ?_⟩
  · rw [update_mastery_single { r with mastery_probability := some 0 }
        r.user_id r.topic_id c now hu ht rfl rfl,
      update_mastery_single { r with mastery_probability := some BKT_p_init }
        r.user_id r.topic_id c now hu ht rfl rfl]
    norm_num [applyBkt, effP, effS, effG, effL, orFloat,
      BKT_p_init, BKT_p_slip, BKT_p_guess, BKT_p_learn]
  · rw [update_mastery_single { r with mastery_probability := none }
        r.user_id r.topic_id c now hu ht rfl rfl,
      update_mastery_single { r with mastery_probability := some BKT_p_init }
        r.user_id r.topic_id c now hu ht rfl rfl]
    norm_num [applyBkt, effP, effS, effG, effL, orFloat,
      BKT_p_init, BKT_p_slip, BKT_p_guess, BKT_p_learn]
  · rw [update_mastery_single { r with slip_probability := some 0 }
        r.user_id r.topic_id c now hu ht rfl rfl,
      update_mastery_single { r with slip_probability := some BKT_p_slip }
        r.user_id r.topic_id c now hu ht rfl rfl]
    norm_num [applyBkt, effP, effS, effG, effL, orFloat,
      BKT_p_init, BKT_p_slip, BKT_p_guess, BKT_p_learn]
  · rw [update_mastery_single { r with guess_probability := some 0 }
        r.user_id r.topic_id c now hu ht rfl rfl,
      update_mastery_single { r with guess_probability := some BKT_p_guess }
        r.user_id r.topic_id c now hu ht rfl rfl]
    norm_num [applyBkt, effP, effS, effG, effL, orFloat,
      BKT_p_init, BKT_p_slip, BKT_p_guess, BKT_p_learn]
  · rw [update_mastery_single { r with learn_probability := some 0 }
        r.user_id r.topic_id c now hu ht rfl rfl,
      update_mastery_single { r with learn_probability := some BKT_p_learn }
        r.user_id r.topic_id c now hu ht rfl rfl]
    norm_num [applyBkt, effP, effS, effG, effL, orFloat,
      BKT_p_init, BKT_p_slip, BKT_p_guess, BKT_p_learn]

/-- Witness for C9: the zero-probability and default-probability updates agree
on a concrete record. -/
theorem C9_witness :
    update_mastery [{ exRecDue with mastery_probability := some 0 }]
        exRecDue.user_id exRecDue.topic_id true 0 true =
      update_mastery [{ exRecDue with mastery_probability := some BKT_p_init }]
        exRecDue.user_id exRecDue.topic_id true 0 true :=
  (C9_zero_defaults.2 exRecDue true 0 (by decide) (by decide)).1

/-- Counterexample to claim C2: a learner whose only mastery record has
knowledge probability 0.99 (≥ 0.95) but stored completion percentage 0, and
nothing due.  Under the claim the topic counts as effectively complete, so it
should be excluded from the candidates and the outcome should be 'complete';
`get_next_step` nevertheless returns it as a new topic, because the filter
consults only the stored completion percentage. -/
theorem C2_counterexample :
    findUser exDBmastery "alice" = some exAlice ∧
      duePairs exDBmastery exAlice.id 0 = [] ∧
      exDBmastery.topics = [exTopicB] ∧
      exRecHighMastery ∈ exDBmastery.progress ∧
      exRecHighMastery.user_id = exAlice.id ∧
      exRecHighMastery.topic_id = exTopicB.id ∧
      (∃ q : ℚ, exRecHighMastery.mastery_probability = some q ∧ 95/100 ≤ q) ∧
      get_next_step exDBmastery "alice" 0 =
        Step.newTopic exTopicB.id (some "Networking") none := by
  refine ⟨rfl, rfl, rfl, List.mem_singleton.mpr rfl, rfl, rfl,
    ⟨99/100, rfl, by norm_num⟩, by decide⟩

/-- Claim C2 (amended): for a learner with no due review, the candidate set
excludes exactly the topics having one of the learner's records with stored
completion percentage ≥ 95 (the knowledge probability plays no role), and
`get_next_step` returns 'complete' precisely when every catalog topic is so
completed. -/
theorem C2_amended (db : DB) (username : String) (now : Int) (u : UserRec)
    (hu : findUser db username = some u)
    (hnodue : duePairs db u.id now = []) :
    (∀ t, t ∈ candidateTopics db u.id ↔
        t ∈ db.topics ∧ effectivelyComplete db u.id t = false) ∧
      (get_next_step db username now = Step.complete ↔
        ∀ t ∈ db.topics, effectivelyComplete db u.id t = true) := by
  refine ⟨fun t => mem_candidateTopics, ?_⟩
  have hstep : get_next_step db username now =
      match minFirstBy topicKeyLt (candidateTopics db u.id) with
      | none => Step.complete
      | some best =>
        Step.newTopic best.id best.name ((best.projects.head?).map (fun p => p.title)) := by
    simp only [get_next_step, hu, hnodue, minFirstBy]
  rw [hstep]
  cases hmin : minFirstBy topicKeyLt (candidateTopics db u.id) with
  | none =>
    have hc : candidateTopics db u.id = [] := minFirstBy_eq_none.mp hmin
    constructor
    · intro _ t ht
      have := List.filter_eq_nil_iff.mp hc t ht
      simpa using this
    · intro _; rfl
  | some best =>
    have hbmem := (minFirstBy_spec topicKeyLt_asymm topicKeyLt_compat hmin).1
    constructor
    · intro h
      exact absurd h (by simp)
    · intro hall
      exfalso
      rw [mem_candidateTopics] at hbmem
      have := hall best hbmem.1
      rw [hbmem.2] at this
      exact Bool.noConfusion this

/-- Witness for C2: when the learner's only record stores completion 100
(every topic completed, nothing due), the outcome is 'complete'. -/
theorem C2_witness : get_next_step exDBcomplete "alice" 0 = Step.complete :=
  ((C2_amended exDBcomplete "alice" 0 exAlice rfl rfl).2).mpr (by decide)

/-- Claim C3: whenever at least one of the learner's records is due
(next_review_at ≤ now and status in_progress or mastered), `get_next_step`
returns the review outcome, and the returned topic belongs to a due record
with the earliest next_review_at among all due records.  Foreign-key
integrity (every due record's topic exists in the catalog) is assumed, as the
schema enforces it. -/
theorem C3_review_priority (db : DB) (username : String) (now : Int) (u : UserRec)
    (hu : findUser db username = some u)
    (hfk : ∀ r ∈ db.progress, isDue u.id now r = true → ∃ t ∈ db.topics, t.id = r.topic_id)
    (hdue : ∃ r ∈ db.progress, isDue u.id now r = true) :
    ∃ (r : UserProgressRec) (t : Topic), get_next_step db username now = Step.review t.id t.name ∧
      r ∈ db.progress ∧ isDue u.id now r = true ∧ t.id = r.topic_id ∧
      ∃ d, r.next_review_date = some d ∧
        ∀ r' ∈ db.progress, isDue u.id now r' = true →
          ∀ d', r'.next_review_date = some d' → d ≤ d' := by
  obtain ⟨r0, hr0, hd0⟩ := hdue
  obtain ⟨t0, ht0, htid0⟩ := hfk r0 hr0 hd0
  have hsome : (db.topics.find? (fun tt => tt.id == r0.topic_id)).isSome :=
    List.find?_isSome.mpr ⟨t0, ht0, by simp [htid0]⟩
  obtain ⟨t1, ht1⟩ := Option.isSome_iff_exists.mp hsome
  have hmem0 : (r0, t1) ∈ duePairs db u.id now := mem_duePairs.mpr ⟨hr0, hd0, ht1⟩
  have hne : duePairs db u.id now ≠ [] := List.ne_nil_of_mem hmem0
  obtain ⟨pair, hpair⟩ := minFirstBy_of_ne_nil duePairLt hne
  obtain ⟨rm, tm⟩ := pair
  obtain ⟨hpmem, hpmin⟩ := minFirstBy_spec duePairLt_asymm duePairLt_compat hpair
  obtain ⟨hrmem, hrdue, hrfind⟩ := mem_duePairs.mp hpmem
  have htmid : tm.id = rm.topic_id := by
    have := List.find?_some hrfind
    exact beq_iff_eq.mp this
  have hstep : get_next_step db username now = Step.review tm.id tm.name := by
    simp only [get_next_step, hu, hpair]
  obtain ⟨-, ⟨dm, hdm, -⟩, -⟩ := (isDue_iff u.id now rm).mp hrdue
  refine ⟨rm, tm, hstep, hrmem, hrdue, htmid, dm, hdm, ?_⟩
  intro r' hr' hdue' d' hd'
  obtain ⟨t2, ht2, htid2⟩ := hfk r' hr' hdue'
  have hsome' : (db.topics.find? (fun tt => tt.id == r'.topic_id)).isSome :=
    List.find?_isSome.mpr ⟨t2, ht2, by simp [htid2]⟩
  obtain ⟨t3, ht3⟩ := Option.isSome_iff_exists.mp hsome'
  have hmem' : (r', t3) ∈ duePairs db u.id now := mem_duePairs.mpr ⟨hr', hdue', ht3⟩
  have := hpmin (r', t3) hmem'
  simp only [duePairLt, hd', hdm, Option.getD_some, decide_eq_false_iff_not, not_lt] at this
  exact this

/-- Witness for C3: a due in-progress record wins over the (unstarted) topic
catalog. -/
theorem C3_witness :
    ∃ (r : UserProgressRec) (t : Topic), get_next_step exDBdue "alice" 0 = Step.review t.id t.name ∧
      r ∈ exDBdue.progress ∧ isDue exAlice.id 0 r = true ∧ t.id = r.topic_id ∧
      ∃ d, r.next_review_date = some d ∧
        ∀ r' ∈ exDBdue.progress, isDue exAlice.id 0 r' = true →
          ∀ d', r'.next_review_date = some d' → d ≤ d' :=
  C3_review_priority exDBdue "alice" 0 exAlice rfl (by decide) (by decide)

/-- Counterexample to claim C5: two candidate topics with equal difficulty and
order hints 0 and 5.  Ascending lexicographic order on (order hint, difficulty)
makes the order-0 topic minimal, but the code's sort key is `t.order or 999`,
which treats the hint 0 as falsy, so `get_next_step` returns the order-5
topic. -/
theorem C5_counterexample :
    findUser exDBorder "alice" = some exAlice ∧
      duePairs exDBorder exAlice.id 0 = [] ∧
      exTopicA ∈ candidateTopics exDBorder exAlice.id ∧
      exTopicB ∈ candidateTopics exDBorder exAlice.id ∧
      exTopicA.order = some 0 ∧ exTopicB.order = some 5 ∧
      exTopicA.difficulty = exTopicB.difficulty ∧
      exTopicA.id ≠ exTopicB.id ∧
      get_next_step exDBorder "alice" 0 =
        Step.newTopic exTopicB.id (some "Networking") none := by
  decide

/-- Claim C5 (amended): with no due review and a non-empty candidate set whose
topics all carry a non-null, non-empty difficulty label, `get_next_step`
returns the 'new' outcome with a candidate that is minimal under ascending
lexicographic order on (order hint with null or 0 replaced by 999, difficulty
label compared as a string), together with the title of that topic's first
linked project when one exists and null otherwise. -/
theorem C5_amended (db : DB) (username : String) (now : Int) (u : UserRec)
    (hu : findUser db username = some u)
    (hnodue : duePairs db u.id now = [])
    (hcand : candidateTopics db u.id ≠ [])
    (hdiff : ∀ t ∈ candidateTopics db u.id, ∃ s, t.difficulty = some s ∧ s ≠ "") :
    ∃ best ∈ candidateTopics db u.id,
      get_next_step db username now =
        Step.newTopic best.id best.name ((best.projects.head?).map (fun p => p.title)) ∧
      ∀ t ∈ candidateTopics db u.id,
        orderKey best < orderKey t ∨
          (orderKey best = orderKey t ∧
            (strLtB (diffKey best) (diffKey t) = true ∨ diffKey best = diffKey t)) := by
  obtain ⟨best, hbest⟩ := minFirstBy_of_ne_nil topicKeyLt hcand
  obtain ⟨hbmem, hbmin⟩ := minFirstBy_spec topicKeyLt_asymm topicKeyLt_compat hbest
  refine ⟨best, hbmem, ?_, ?_⟩
  · simp only [get_next_step, hu, hnodue, minFirstBy_nil, hbest]
  · intro t ht
    have hnlt := hbmin t ht
    rw [Bool.eq_false_iff] at hnlt
    have hnlt' : ¬(orderKey t < orderKey best ∨
        (orderKey t = orderKey best ∧ strLtB (diffKey t) (diffKey best) = true)) :=
      fun hc => hnlt ((topicKeyLt_iff t best).mpr hc)
    push_neg at hnlt'
    rcases lt_or_eq_of_le hnlt'.1 with h | h
    · exact Or.inl h
    · refine Or.inr ⟨h, ?_⟩
      have htb : strLtB (diffKey t) (diffKey best) = false :=
        Bool.eq_false_iff.mpr (hnlt'.2 h.symm)
      rcases strLtB_trichotomy (diffKey best) (diffKey t) with hbt | hbt | hbt
      · exact Or.inl hbt
      · exact Or.inr hbt
      · rw [hbt] at htb
        exact Bool.noConfusion htb

/-- Witness for C5 (amended): the order-5 topic is the code's minimum over the
two-candidate catalog. -/
theorem C5_witness :
    ∃ best ∈ candidateTopics exDBorder exAlice.id,
      get_next_step exDBorder "alice" 0 =
        Step.newTopic best.id best.name ((best.projects.head?).map (fun p => p.title)) ∧
      ∀ t ∈ candidateTopics exDBorder exAlice.id,
        orderKey best < orderKey t ∨
          (orderKey best = orderKey t ∧
            (strLtB (diffKey best) (diffKey t) = true ∨ diffKey best = diffKey t)) :=
  C5_amended exDBorder "alice" 0 exAlice rfl rfl (by decide) (by decide)

/-! ## Helper lemmas: answer keys and grading -/

theorem forall₂_mem_left {α β : Type} {R : α → β → Prop} :
    ∀ {l1 : List α} {l2 : List β}, List.Forall₂ R l1 l2 → ∀ a ∈ l1, ∃ b ∈ l2, R a b
  | _, _, List.Forall₂.nil, a, ha => absurd ha (List.not_mem_nil a)
  | _, _, List.Forall₂.cons h hs, a, ha => by
    rcases List.mem_cons.mp ha with rfl | ha
    · exact ⟨_, List.mem_cons_self _ _, h⟩
    · obtain ⟨b, hb, hr⟩ := forall₂_mem_left hs a ha
      exact ⟨b, List.mem_cons_of_mem _ hb, hr⟩

theorem forall₂_mem_right {α β : Type} {R : α → β → Prop} :
    ∀ {l1 : List α} {l2 : List β}, List.Forall₂ R l1 l2 → ∀ b ∈ l2, ∃ a ∈ l1, R a b
  | _, _, List.Forall₂.nil, b, hb => absurd hb (List.not_mem_nil b)
  | _, _, List.Forall₂.cons h hs, b, hb => by
    rcases List.mem_cons.mp hb with rfl | hb
    · exact ⟨_, List.mem_cons_self _ _, h⟩
    · obtain ⟨a, ha, hr⟩ := forall₂_mem_right hs b hb
      exact ⟨a, List.mem_cons_of_mem _ ha, hr⟩

theorem firstCorrectKey_some {opts : List QuizOption} {k : String}
    (h : firstCorrectKey opts = some k) :
    ∃ o ∈ opts, o.option_key = k ∧ o.is_correct = true := by
  unfold firstCorrectKey at h
  rw [Option.map_eq_some'] at h
  obtain ⟨o, ho, hk⟩ := h
  exact ⟨o, List.mem_of_find?_eq_some ho, hk, List.find?_some ho⟩

theorem dictInsert_fresh {m : List (String × String)} {k v : String}
    (h : ∀ p ∈ m, p.1 ≠ k) : dictInsert m k v = m ++ [(k, v)] := by
  unfold dictInsert
  rw [if_neg]
  simp only [List.any_eq_true, beq_iff_eq, not_exists, not_and]
  exact h

/-- `get_answer_key`'s loop raises iff some question's `correct_option` is
falsy: no option is marked correct, or the first correct option (in the
ordered option list) has the empty string as key. -/
theorem buildKey_error_iff :
    ∀ (qs : List QuizQuestion) (acc : List (String × String)),
      (∃ e, buildKey qs acc = .error e) ↔
        ∃ q ∈ qs, firstCorrectKey q.options = none ∨ firstCorrectKey q.options = some ""
  | [], acc => by simp [buildKey]
  | q :: rest, acc => by
    cases hk : firstCorrectKey q.options with
    | none =>
      simp only [buildKey, hk]
      exact iff_of_true ⟨_, rfl⟩ ⟨q, List.mem_cons_self q rest, Or.inl hk⟩
    | some k =>
      by_cases hke : k = ""
      · subst hke
        simp only [buildKey, hk, if_pos rfl]
        exact iff_of_true ⟨_, rfl⟩ ⟨q, List.mem_cons_self q rest, Or.inr hk⟩
      · simp only [buildKey, hk, if_neg hke]
        rw [buildKey_error_iff rest (dictInsert acc (toString q.id) k)]
        constructor
        · rintro ⟨q', hq', hbad⟩
          exact ⟨q', List.mem_cons_of_mem q hq', hbad⟩
        · rintro ⟨q', hq', hbad⟩
          rcases List.mem_cons.mp hq' with rfl | hq'
          · rcases hbad with hbad | hbad
            · rw [hk] at hbad; exact Option.noConfusion hbad
            · rw [hk] at hbad
              injection hbad with hbad
              exact absurd hbad hke
          · exact ⟨q', hq', hbad⟩

/-- A successful `get_answer_key` loop appends, per question in order, one
entry mapping the stringified question id to its first correct option key. -/
theorem buildKey_ok_of_nodup :
    ∀ (qs : List QuizQuestion) (acc key : List (String × String)),
      (qs.map (fun q => toString q.id)).Nodup →
      (∀ q ∈ qs, ∀ p ∈ acc, p.1 ≠ toString q.id) →
      buildKey qs acc = .ok key →
      ∃ rest, key = acc ++ rest ∧
        List.Forall₂ (fun (q : QuizQuestion) (p : String × String) =>
          p.1 = toString q.id ∧ p.2 ≠ "" ∧ firstCorrectKey q.options = some p.2) qs rest
  | [], acc, key, _, _, h => by
    simp only [buildKey, Except.ok.injEq] at h
    exact ⟨[], by rw [← h, List.append_nil], List.Forall₂.nil⟩
  | q :: rest, acc, key, hnodup, hfresh, h => by
    cases hk : firstCorrectKey q.options with
    | none =>
      simp only [buildKey, hk] at h
      exact Except.noConfusion h
    | some k =>
      by_cases hke : k = ""
      · subst hke
        simp only [buildKey, hk, if_pos rfl] at h
        exact Except.noConfusion h
      · simp only [buildKey, hk, if_neg hke] at h
        have hins : dictInsert acc (toString q.id) k = acc ++ [(toString q.id, k)] :=
          dictInsert_fresh (fun p hp => hfresh q (List.mem_cons_self q rest) p hp)
        rw [hins] at h
        rw [List.map_cons] at hnodup
        have hnd := List.nodup_cons.mp hnodup
        have hfresh' : ∀ q' ∈ rest, ∀ p ∈ acc ++ [(toString q.id, k)],
            p.1 ≠ toString q'.id := by
          intro q' hq' p hp
          rcases List.mem_append.mp hp with hp | hp
          · exact hfresh q' (List.mem_cons_of_mem q hq') p hp
          · rcases List.mem_singleton.mp hp with rfl
            intro hc
            have hc' : toString q.id = toString q'.id := hc
            exact hnd.1 (by rw [hc']; exact List.mem_map_of_mem _ hq')
        obtain ⟨rest', hkeq, hfa⟩ :=
          buildKey_ok_of_nodup rest (acc ++ [(toString q.id, k)]) key hnd.2 hfresh' h
        refine ⟨(toString q.id, k) :: rest', ?_, List.Forall₂.cons ⟨rfl, hke, hk⟩ hfa⟩
        rw [hkeq, List.append_assoc, List.singleton_append]

theorem forall₂_keys :
    ∀ {qs : List QuizQuestion} {rest : List (String × String)},
      List.Forall₂ (fun (q : QuizQuestion) (p : String × String) =>
        p.1 = toString q.id ∧ p.2 ≠ "" ∧ firstCorrectKey q.options = some p.2) qs rest →
      rest.map Prod.fst = qs.map (fun q => toString q.id)
  | _, _, List.Forall₂.nil => rfl
  | _, _, List.Forall₂.cons h hs => by
    simp only [List.map_cons, h.1, forall₂_keys hs]

theorem alistGet_mem {m : List (String × String)} (hnd : (m.map Prod.fst).Nodup) :
    ∀ p ∈ m, alistGet m p.1 = some p.2 := by
  induction m with
  | nil => simp
  | cons x xs ih =>
    intro p hp
    rcases List.mem_cons.mp hp with rfl | hp
    · unfold alistGet
      simp [List.find?]
    · rw [List.map_cons] at hnd
      have hnd' := List.nodup_cons.mp hnd
      have hx : (x.1 == p.1) = false := by
        rw [beq_eq_false_iff_ne]
        intro hc
        exact hnd'.1 (by rw [hc]; exact List.mem_map_of_mem _ hp)
      unfold alistGet
      rw [List.find?_cons, hx]
      exact ih hnd'.2 p hp

theorem get_answer_key_ok_buildKey {qs : List QuizQuestion} {tid : Int}
    {key : List (String × String)} (hkey : get_answer_key qs tid = .ok key) :
    buildKey (fetchQuestions qs tid) [] = .ok key := by
  by_cases hc : fetchQuestions qs tid = []
  · simp only [get_answer_key, hc, if_pos rfl] at hkey
    exact Except.noConfusion hkey
  · simp only [get_answer_key, if_neg hc] at hkey
    exact hkey

/-- Claim C4: for a topic whose bank yields a well-configured answer key,
`grade_submission` returns (correct, total) with total the number of questions
in the bank for every answer map; missing or non-matching answers merely count
as incorrect; submitting exactly the key scores full marks; the empty map
scores 0; and entries at ids outside the bank never affect the result.
(Uniqueness of question ids, the table's primary key, is assumed.) -/
theorem C4_grading (qs : List QuizQuestion) (tid : Int) (key : List (String × String))
    (hkey : get_answer_key qs tid = .ok key)
    (hnodup : ((fetchQuestions qs tid).map (fun q => toString q.id)).Nodup) :
    (∀ answers, ∃ c, grade_submission qs tid answers =
        .ok (c, (fetchQuestions qs tid).length)) ∧
      grade_submission qs tid (alistGet key) =
        .ok ((fetchQuestions qs tid).length, (fetchQuestions qs tid).length) ∧
      grade_submission qs tid (fun _ => none) = .ok (0, (fetchQuestions qs tid).length) ∧
      (∀ a a', (∀ q ∈ fetchQuestions qs tid, a (toString q.id) = a' (toString q.id)) →
        grade_submission qs tid a = grade_submission qs tid a') := by
  obtain ⟨rest, hkeq, hfa⟩ := buildKey_ok_of_nodup (fetchQuestions qs tid) [] key hnodup
    (by simp) (get_answer_key_ok_buildKey hkey)
  rw [List.nil_append] at hkeq
  subst hkeq
  have hg : ∀ a, grade_submission qs tid a =
      .ok ((key.filter (fun p => a p.1 == some p.2)).length, key.length) := by
    intro a
    simp only [grade_submission, hkey]
  have hlen : key.length = (fetchQuestions qs tid).length := hfa.length_eq.symm
  have hnk : (key.map Prod.fst).Nodup := by
    rw [forall₂_keys hfa]; exact hnodup
  refine ⟨fun a => ⟨_, by rw [hg a, hlen]⟩, ?_, ?_, ?_⟩
  · rw [hg, hlen]
    have hself : key.filter (fun p => alistGet key p.1 == some p.2) = key :=
      List.filter_eq_self.mpr (fun p hp => by
        rw [alistGet_mem hnk p hp]
        exact beq_self_eq_true _)
    rw [hself, hlen]
  · rw [hg]
    have hnil : key.filter (fun p => (none : Option String) == some p.2) = [] :=
      List.filter_eq_nil_iff.mpr (fun p _ => by simp)
    rw [hnil, hlen]
    rfl
  · intro a a' hagree
    rw [hg, hg]
    have hcong : key.filter (fun p => a p.1 == some p.2) =
        key.filter (fun p => a' p.1 == some p.2) := by
      apply List.filter_congr
      intro p hp
      obtain ⟨q, hq, hr⟩ := forall₂_mem_right hfa p hp
      rw [hr.1, hagree q hq]
    rw [hcong]

/-- Witness for C4: the two-question bank of `exDBquiz`. -/
theorem C4_witness :
    (∀ answers, ∃ c, grade_submission [exQ1, exQ2] 1 answers =
        .ok (c, (fetchQuestions [exQ1, exQ2] 1).length)) ∧
      grade_submission [exQ1, exQ2] 1 (alistGet [("1", "b"), ("2", "a")]) =
        .ok ((fetchQuestions [exQ1, exQ2] 1).length, (fetchQuestions [exQ1, exQ2] 1).length) ∧
      grade_submission [exQ1, exQ2] 1 (fun _ => none) =
        .ok (0, (fetchQuestions [exQ1, exQ2] 1).length) ∧
      (∀ a a', (∀ q ∈ fetchQuestions [exQ1, exQ2] 1,
          a (toString q.id) = a' (toString q.id)) →
        grade_submission [exQ1, exQ2] 1 a = grade_submission [exQ1, exQ2] 1 a') :=
  C4_grading [exQ1, exQ2] 1 [("1", "b"), ("2", "a")] rfl (by decide)

/-- Counterexample to claim C8: a question whose single option is marked
correct but carries the empty string as its key.  A correct option exists, yet
`get_answer_key` raises the invalid-configuration error, because Python's
`if not correct_option` treats the empty key as missing. -/
theorem C8_counterexample :
    get_answer_key [cexQuestion] 1 =
        .error "Question 1 does not have a correct option configured." ∧
      ∃ o ∈ cexQuestion.options, o.is_correct = true :=
  ⟨rfl, ⟨{ option_key := "", label := "the answer", is_correct := true },
    List.mem_singleton.mpr rfl, rfl⟩⟩

/-- Claim C8 (amended): for a topic with a non-empty question bank,
`get_answer_key` raises the invalid-configuration error iff some question in
the bank has no option marked correct or its first correct option (in the
bank's key-ordered option list) has an empty key; otherwise it returns a
mapping that covers every question of the bank, sending each stringified
question id to the non-empty key of a correct option of that question, and
contains no other entries. -/
theorem C8_answer_key (qs : List QuizQuestion) (tid : Int)
    (hne : fetchQuestions qs tid ≠ [])
    (hnodup : ((fetchQuestions qs tid).map (fun q => toString q.id)).Nodup) :
    ((∃ e, get_answer_key qs tid = .error e) ↔
        ∃ q ∈ fetchQuestions qs tid,
          firstCorrectKey q.options = none ∨ firstCorrectKey q.options = some "") ∧
      ∀ key, get_answer_key qs tid = .ok key →
        (∀ q ∈ fetchQuestions qs tid, ∃ k, (toString q.id, k) ∈ key ∧ k ≠ "" ∧
          ∃ o ∈ q.options, o.option_key = k ∧ o.is_correct = true) ∧
        (∀ p ∈ key, ∃ q ∈ fetchQuestions qs tid, p.1 = toString q.id) := by
  constructor
  · have hun : get_answer_key qs tid = buildKey (fetchQuestions qs tid) [] := by
      simp only [get_answer_key, if_neg hne]
    rw [hun]
    exact buildKey_error_iff (fetchQuestions qs tid) []
  · intro key hkey
    obtain ⟨rest, hkeq, hfa⟩ := buildKey_ok_of_nodup (fetchQuestions qs tid) [] key hnodup
      (by simp) (get_answer_key_ok_buildKey hkey)
    rw [List.nil_append] at hkeq
    subst hkeq
    constructor
    · intro q hq
      obtain ⟨p, hp, hr⟩ := forall₂_mem_left hfa q hq
      obtain ⟨o, ho, hok, hoc⟩ := firstCorrectKey_some hr.2.2
      exact ⟨p.2, by rw [← hr.1]; exact hp, hr.2.1, o, ho, hok, hoc⟩
    · intro p hp
      obtain ⟨q, hq, hr⟩ := forall₂_mem_right hfa p hp
      exact ⟨q, hq, hr.1⟩

/-- Witness for C8 (amended): the well-formed two-question bank raises no
error, matching the amended criterion. -/
theorem C8_witness :
    (∃ e, get_answer_key [exQ1, exQ2] 1 = .error e) ↔
      ∃ q ∈ fetchQuestions [exQ1, exQ2] 1,
        firstCorrectKey q.options = none ∨ firstCorrectKey q.options = some "" :=
  (C8_answer_key [exQ1, exQ2] 1 (by decide) (by decide)).1

/-- Claim C10: the submit-quiz endpoint feeds the estimator exactly one binary
observation per submission, is_correct = (correct == total); every submission
with correct < total therefore flows through the incorrect branch, and its
mastery side effect is identical to that of a submission scoring zero. -/
theorem C10_submit_binary (db : DB) (username : String) (tid : Int)
    (answers : List (String × String)) (now : Int) (ok : Bool) (u : UserRec)
    (c t : Nat)
    (hname : username ≠ "")
    (htid : 0 < tid)
    (hans : answers ≠ [])
    (hu : findUser db username = some u)
    (htopic : (db.topics.find? (fun tt => tt.id == tid)).isSome)
    (hgrade : grade_submission db.questions tid (alistGet answers) = .ok (c, t))
    (ht : t ≠ 0) :
    (submit_quiz db username tid answers now ok =
        match update_mastery db.progress u.id tid (c == t) now ok with
        | (.ok m, prog) => (.ok (c, t, m), prog)
        | (.error e, prog) => (.error e, prog)) ∧
      (c < t →
        (c == t) = false ∧
          submit_quiz db username tid answers now ok =
            match update_mastery db.progress u.id tid false now ok with
            | (.ok m, prog) => (.ok (c, t, m), prog)
            | (.error e, prog) => (.error e, prog)) ∧
      (∀ answers0, answers0 ≠ [] →
        grade_submission db.questions tid (alistGet answers0) = .ok (0, t) →
        c < t →
        (submit_quiz db username tid answers0 now ok).2 =
          (submit_quiz db username tid answers now ok).2) := by
  obtain ⟨tt, htt⟩ := Option.isSome_iff_exists.mp htopic
  have hmain : ∀ (ans : List (String × String)), ans ≠ [] →
      ∀ c' t', grade_submission db.questions tid (alistGet ans) = .ok (c', t') → t' ≠ 0 →
      submit_quiz db username tid ans now ok =
        match update_mastery db.progress u.id tid (c' == t') now ok with
        | (.ok m, prog) => (.ok (c', t', m), prog)
        | (.error e, prog) => (.error e, prog) := by
    intro ans hne c' t' hg ht'
    simp only [submit_quiz, if_neg hname, if_neg (not_le.mpr htid), if_neg hne, hu, htt, hg,
      if_neg ht']
  have hsnd : ∀ (c'' t'' : Nat) (b : Bool),
      (match update_mastery db.progress u.id tid b now ok with
        | (.ok m, prog) => ((.ok (c'', t'', m) : Except String (Nat × Nat × ℚ)), prog)
        | (.error e, prog) => (.error e, prog)).2 =
        (update_mastery db.progress u.id tid b now ok).2 := by
    intro c'' t'' b
    rcases update_mastery db.progress u.id tid b now ok with ⟨res, prog⟩
    cases res <;> rfl
  have h1 := hmain answers hans c t hgrade ht
  have hbeq : c < t → (c == t) = false := fun hlt =>
    beq_eq_false_iff_ne.mpr (Nat.ne_of_lt hlt)
  refine ⟨h1, fun hlt => ⟨hbeq hlt, ?_⟩, ?_⟩
  · rw [h1, hbeq hlt]
  · intro ans0 hne0 hg0 hlt
    have h0 := hmain ans0 hne0 0 t hg0 ht
    have hbeq0 : (0 == t) = false := beq_eq_false_iff_ne.mpr (Ne.symm ht)
    rw [h0, hbeq0, h1, hbeq hlt, hsnd, hsnd]

/-- Witness for C10: a one-of-two-correct submission updates mastery through
the incorrect branch. -/
theorem C10_witness :
    ((1 : Nat) == (2 : Nat)) = false ∧
      submit_quiz exDBquiz "alice" 1 [("1", "b")] 0 true =
        match update_mastery exDBquiz.progress exAlice.id 1 false 0 true with
        | (.ok m, prog) => (.ok (1, 2, m), prog)
        | (.error e, prog) => (.error e, prog) :=
  (C10_submit_binary exDBquiz "alice" 1 [("1", "b")] 0 true exAlice 1 2
    (by decide) (by decide) (by decide) rfl (by decide) rfl (by decide)).2.1 (by decide)

end CyberSensei
